import Mathlib

/-!
Verification of the equity-screening script `src/Value_Screening.py`.

The script builds three factor expressions over an index universe, ranks the
universe on each factor, keeps the identifiers whose rank clears a threshold
on all three factors, and assembles a result table of the raw factor values
for the surviving identifiers.

Identifiers are modelled as natural numbers, factor values as rationals.
The vendor-side query semantics (the BQL backend operations `group`, `znav`,
`rank`, `univ.filter`) are not part of the repository; those definitions are
modelled from the specification and are marked as such in their doc comments.
-/

namespace ValueScreening

/-- Raw per-identifier fields fetched from the data service, one record per
identifier (the fields requested at src lines 27-37). -/
structure RawData where
  px_last : ℚ
  book_val_per_sh : ℚ
  return_com_eqy_m1 : ℚ
  return_com_eqy_m2 : ℚ
  cf_cash_from_oper : ℚ
  bs_tot_asset : ℚ

/-- src line 27: `bq.data.px_last(...) / bq.data.book_val_per_sh(...)`. -/
def bq_px_to_book (d : RawData) : ℚ := d.px_last / d.book_val_per_sh

/-- src lines 30-31: `(return_com_eqy(offset -1) + return_com_eqy(offset -2)) / 2`. -/
def bq_avg_roe_2y (d : RawData) : ℚ :=
  (d.return_com_eqy_m1 + d.return_com_eqy_m2) / 2

/-- src line 34: `bq.data.cf_cash_from_oper(fa_period_type='LTM')`. -/
def cash_from_oper (d : RawData) : ℚ := d.cf_cash_from_oper

/-- src line 35: `bq.data.bs_tot_asset(fa_period_type='LTM')`. -/
def tot_asset (d : RawData) : ℚ := d.bs_tot_asset

/-- src line 38: `cash_from_oper / tot_asset`. -/
def bq_cash_per_asset (d : RawData) : ℚ := cash_from_oper d / tot_asset d

/-- Python `int()` on a real value truncates toward zero. -/
def pyInt (q : ℚ) : ℤ := if 0 ≤ q then ⌊q⌋ else ⌈q⌉

/-- src line 46: `threshold_percentage = 0.80`. -/
def threshold_percentage : ℚ := 80 / 100

/-- src line 47: `threshold_rank = int(threshold_percentage * num_of_members)`,
parameterised by the percentage `p` and the universe size `n`. -/
def threshold_rank (p : ℚ) (n : ℕ) : ℤ := pyInt (p * n)

/-- Spec formula: price-to-book equals last price divided by most-recent
book-value-per-share. -/
def spec_price_to_book (d : RawData) : ℚ := d.px_last / d.book_val_per_sh

/-- Spec formula: 2-year average ROE equals the sum of ROE at fiscal-year
offsets -1 and -2, divided by 2. -/
def spec_avg_roe_2y (d : RawData) : ℚ :=
  (d.return_com_eqy_m1 + d.return_com_eqy_m2) / 2

/-- Spec formula: cash-per-asset equals trailing-twelve-month operating cash
flow divided by trailing-twelve-month total assets. -/
def spec_cash_per_asset (d : RawData) : ℚ := d.cf_cash_from_oper / d.bs_tot_asset

/-- Mean of a list of rational values. -/
def mean (xs : List ℚ) : ℚ := xs.sum / xs.length

/-- Modelled from the spec: the standardization step of the rank function
(src line 51 delegates it to the backend; spec section 4.2: subtract the
mean, divide by the standard deviation). The standard deviation is a scale
common to the whole universe and positive whenever the variance is nonzero,
so dividing by it never changes the relative order that the rank step
consumes, and the square root it requires is in general irrational; the
embedding therefore keeps the order-relevant centering step. When the
variance is zero every centered value is 0 and the rank step below falls
back to the original order, which is the tie policy the spec prescribes for
the degenerate case. -/
def standardize (xs : List ℚ) : List ℚ := xs.map (fun x => x - mean xs)

/-- Modelled from the spec: position `j` is ranked strictly before position
`i` when its standardized value is smaller, ties broken by original
position. -/
def rankBefore (xs : List ℚ) (j i : ℕ) : Bool :=
  decide (xs.getD j 0 < xs.getD i 0) ||
    (decide (xs.getD j 0 = xs.getD i 0) && decide (j < i))

/-- Modelled from the spec: the ascending rank of position `i` is one more
than the number of positions ranked strictly before it. -/
def rankOf (xs : List ℚ) (i : ℕ) : ℕ :=
  1 + ((List.range xs.length).filter (fun j => rankBefore xs j i)).length

/-- src lines 50-51: the custom rank function `rank_func`: standardize the
factor values, then assign ranks by ascending standardized value
(rank 1 = lowest). -/
def rank_func (xs : List ℚ) : List ℕ :=
  (List.range xs.length).map (rankOf (standardize xs))

/-- Modelled from the spec: `bq.func.and_` (src line 65) combines two boolean
criteria pointwise by logical AND. -/
def and_ (a b : ℕ → Bool) : ℕ → Bool := fun id => a id && b id

/-- src line 62: one criterion per factor rank,
`factor_rank <= threshold_rank`. -/
def criteria (factor_ranks : List (ℕ → ℕ)) (t : ℤ) : List (ℕ → Bool) :=
  factor_ranks.map (fun r id => decide ((r id : ℤ) ≤ t))

/-- src lines 64-65: start from the first criterion and fold the remaining
criteria with `bq.func.and_`. -/
def criteria_final (cs : List (ℕ → Bool)) : ℕ → Bool :=
  match cs with
  | [] => fun _ => true
  | c :: rest => rest.foldl and_ c

/-- Modelled from the spec: `bq.univ.filter` (src line 69) keeps exactly the
members of the universe that satisfy the criterion. -/
def filter_univ (univ : List ℕ) (c : ℕ → Bool) : List ℕ := univ.filter c

/-- src line 69: the filtered universe, given per-factor rank vectors and a
threshold rank. -/
def filtered_univ (univ : List ℕ) (factor_ranks : List (ℕ → ℕ)) (t : ℤ) :
    List ℕ :=
  filter_univ univ (criteria_final (criteria factor_ranks t))

/-- src lines 72-77: the ordered dictionary of result columns: label paired
with the factor expression, in insertion order AVE_ROE_2Y, PX_BOOK_VALUE,
CASH_PER_ASSET. -/
def items_ordered_dict (d : ℕ → RawData) : List (String × (ℕ → ℚ)) :=
  [("AVE_ROE_2Y", fun id => bq_avg_roe_2y (d id)),
   ("PX_BOOK_VALUE", fun id => bq_px_to_book (d id)),
   ("CASH_PER_ASSET", fun id => bq_cash_per_asset (d id))]

/-- src lines 54-69 assembled: rank the three factors across the universe,
compare each rank with the threshold rank, and keep the identifiers passing
all three criteria. Ranks are positional, so the criteria are evaluated on
positions and the surviving positions are mapped back to identifiers. -/
def screen (univ : List ℕ) (d : ℕ → RawData) : List ℕ :=
  let n := univ.length
  let t := threshold_rank threshold_percentage n
  let factor_ranks := [rank_func (univ.map (fun id => bq_avg_roe_2y (d id))),
                       rank_func (univ.map (fun id => bq_px_to_book (d id))),
                       rank_func (univ.map (fun id => bq_cash_per_asset (d id)))]
  (filtered_univ (List.range n) (factor_ranks.map (fun r i => r.getD i 0)) t).map
    (fun i => univ.getD i 0)

/-- src lines 82-88: the result table, one row per surviving identifier, one
cell per column of the ordered dictionary, raw factor values. -/
def bq_result_df (filtered : List ℕ) (items : List (String × (ℕ → ℚ))) :
    List (List ℚ) :=
  filtered.map (fun id => items.map (fun it => it.2 id))

/-- The whole pipeline of one run: the filtered universe and the result
table. -/
def run_pipeline (univ : List ℕ) (d : ℕ → RawData) : List ℕ × List (List ℚ) :=
  let filtered := screen univ d
  (filtered, bq_result_df filtered (items_ordered_dict d))

/-- The two kinds of outbound requests the script submits to the data
service. -/
inductive BqlRequest where
  | countRequest (univ : List ℕ)
  | screeningRequest (univ : List ℕ) (labels : List String)
deriving DecidableEq

/-- The sequence of outbound requests submitted during one run: the count
request of src line 42 and the screening request of src line 85, in that
order. -/
def run_requests (univ : List ℕ) (d : ℕ → RawData) : List BqlRequest :=
  [BqlRequest.countRequest univ,
   BqlRequest.screeningRequest (screen univ d)
     ((items_ordered_dict d).map Prod.fst)]

/-- `pyInt` agrees with the floor on nonnegative arguments. -/
lemma pyInt_eq_floor_of_nonneg {q : ℚ} (hq : 0 ≤ q) : pyInt q = ⌊q⌋ := by
  simp [pyInt, hq]

/-- `pyInt` is monotone. -/
lemma pyInt_mono {q₁ q₂ : ℚ} (h : q₁ ≤ q₂) : pyInt q₁ ≤ pyInt q₂ := by
  unfold pyInt
  by_cases h1 : 0 ≤ q₁
  · simp [h1, le_trans h1 h]
    exact Int.floor_le_floor h
  · by_cases h2 : 0 ≤ q₂
    · simp [h1, h2]
      calc ⌈q₁⌉ ≤ 0 := Int.ceil_le.mpr (by exact_mod_cast le_of_not_le h1)
        _ ≤ ⌊q₂⌋ := Int.floor_nonneg.mpr h2
    · simp [h1, h2]
      exact Int.ceil_le_ceil h

/-- Membership in the filtered universe, unfolded for the three criteria of
the script. -/
lemma mem_filtered_univ {univ : List ℕ} {r₁ r₂ r₃ : ℕ → ℕ} {t : ℤ} {id : ℕ} :
    id ∈ filtered_univ univ [r₁, r₂, r₃] t ↔
      id ∈ univ ∧ (r₁ id : ℤ) ≤ t ∧ (r₂ id : ℤ) ≤ t ∧ (r₃ id : ℤ) ≤ t := by
  simp [filtered_univ, filter_univ, criteria, criteria_final, and_,
    List.mem_filter, List.foldl, and_assoc]

/-- The filtered universe is always a sublist of the universe. -/
lemma filtered_univ_subset (univ : List ℕ) (rs : List (ℕ → ℕ)) (t : ℤ) :
    filtered_univ univ rs t ⊆ univ := by
  intro id hid
  exact (List.mem_filter.mp hid).1

/-- The criterion combining the three per-factor criteria, evaluated. -/
lemma criteria_final_three (r₁ r₂ r₃ : ℕ → ℕ) (t : ℤ) (id : ℕ) :
    criteria_final (criteria [r₁, r₂, r₃] t) id =
      (decide ((r₁ id : ℤ) ≤ t) && decide ((r₂ id : ℤ) ≤ t) &&
        decide ((r₃ id : ℤ) ≤ t)) := rfl

/-- Counting the elements of `range' 1 n` that are at most `a`, for `a ≤ n`. -/
lemma countP_range'_le {n a : ℕ} (h : a ≤ n) :
    (List.range' 1 n).countP (fun k => decide (k ≤ a)) = a := by
  have hsplit : List.range' 1 a ++ List.range' (1 + a) (n - a) = List.range' 1 n := by
    rw [List.range'_append_1]
    congr 1
    omega
  rw [← hsplit, List.countP_append]
  have h₁ : (List.range' 1 a).countP (fun k => decide (k ≤ a)) = a := by
    rw [List.countP_eq_length.mpr, List.length_range']
    intro x hx
    have := List.mem_range'_1.mp hx
    simpa using by omega
  have h₂ : (List.range' (1 + a) (n - a)).countP (fun k => decide (k ≤ a)) = 0 := by
    rw [List.countP_eq_zero]
    intro x hx
    have := List.mem_range'_1.mp hx
    simpa using by omega
  omega

/-- No position is ranked strictly before itself. -/
lemma rankBefore_irrefl (xs : List ℚ) (i : ℕ) : rankBefore xs i i = false := by
  simp [rankBefore]

/-- The rank-before relation is transitive. -/
lemma rankBefore_trans {xs : List ℚ} {k j i : ℕ} (h₁ : rankBefore xs k j = true)
    (h₂ : rankBefore xs j i = true) : rankBefore xs k i = true := by
  simp only [rankBefore, Bool.or_eq_true, decide_eq_true_eq,
    Bool.and_eq_true] at h₁ h₂ ⊢
  rcases h₁ with h₁ | ⟨e₁, l₁⟩ <;> rcases h₂ with h₂ | ⟨e₂, l₂⟩
  · exact Or.inl (h₁.trans h₂)
  · exact Or.inl (e₂ ▸ h₁)
  · exact Or.inl (e₁ ▸ h₂)
  · exact Or.inr ⟨e₁.trans e₂, l₁.trans l₂⟩

/-- Any two distinct positions are comparable by the rank-before relation. -/
lemma rankBefore_total (xs : List ℚ) {i j : ℕ} (h : i ≠ j) :
    rankBefore xs i j = true ∨ rankBefore xs j i = true := by
  simp only [rankBefore, Bool.or_eq_true, decide_eq_true_eq, Bool.and_eq_true]
  rcases lt_trichotomy (xs.getD i 0) (xs.getD j 0) with hlt | heq | hgt
  · exact Or.inl (Or.inl hlt)
  · rcases Nat.lt_or_ge i j with hij | hij
    · exact Or.inl (Or.inr ⟨heq, hij⟩)
    · exact Or.inr (Or.inr ⟨heq.symm, lt_of_le_of_ne hij (Ne.symm h)⟩)
  · exact Or.inr (Or.inl hgt)

/-- The rank is strictly monotone along the rank-before relation. -/
lemma rankOf_lt_rankOf {xs : List ℚ} {i j : ℕ} (hi : i < xs.length)
    (hij : rankBefore xs i j = true) : rankOf xs i < rankOf xs j := by
  unfold rankOf
  have hsub : i :: (List.range xs.length).filter (fun k => rankBefore xs k i) ⊆
      (List.range xs.length).filter (fun k => rankBefore xs k j) := by
    intro a ha
    rcases List.mem_cons.mp ha with rfl | ha
    · exact List.mem_filter.mpr ⟨List.mem_range.mpr hi, hij⟩
    · have hmem := List.mem_filter.mp ha
      exact List.mem_filter.mpr ⟨hmem.1, rankBefore_trans hmem.2 hij⟩
  have hnd : (i :: (List.range xs.length).filter
      (fun k => rankBefore xs k i)).Nodup := by
    rw [List.nodup_cons]
    refine ⟨fun hmem => ?_, (List.nodup_range _).filter _⟩
    have := (List.mem_filter.mp hmem).2
    rw [rankBefore_irrefl] at this
    exact Bool.false_ne_true this
  have hle := (List.subperm_of_subset hnd hsub).length_le
  simp only [List.length_cons] at hle
  omega

/-- Every rank is at most the length of the list. -/
lemma rankOf_le_length {xs : List ℚ} {i : ℕ} (hi : i < xs.length) :
    rankOf xs i ≤ xs.length := by
  unfold rankOf
  have hsl : List.Sublist
      ((List.range xs.length).filter (fun k => rankBefore xs k i))
      (List.range xs.length) := List.filter_sublist _
  have hlen := hsl.length_le
  rw [List.length_range] at hlen
  rcases Nat.lt_or_ge ((List.range xs.length).filter
      (fun k => rankBefore xs k i)).length xs.length with h | h
  · omega
  · exfalso
    have heq : ((List.range xs.length).filter
        (fun k => rankBefore xs k i)).length = (List.range xs.length).length := by
      rw [List.length_range]; omega
    have hfull := hsl.eq_of_length heq
    have hmem : i ∈ (List.range xs.length).filter (fun k => rankBefore xs k i) := by
      rw [hfull]; exact List.mem_range.mpr hi
    have := (List.mem_filter.mp hmem).2
    rw [rankBefore_irrefl] at this
    exact Bool.false_ne_true this

/-- The list of ranks of any list of values is a permutation of `{1..N}`. -/
lemma rank_list_perm (xs : List ℚ) :
    ((List.range xs.length).map (rankOf xs)).Perm (List.range' 1 xs.length) := by
  have hnd : ((List.range xs.length).map (rankOf xs)).Nodup := by
    refine (List.nodup_range _).map_on ?_
    intro a ha b hb hfab
    by_contra hne
    rcases rankBefore_total xs hne with h | h
    · exact absurd hfab (Nat.ne_of_lt (rankOf_lt_rankOf (List.mem_range.mp ha) h))
    · exact absurd hfab.symm
        (Nat.ne_of_lt (rankOf_lt_rankOf (List.mem_range.mp hb) h))
  have hsub : (List.range xs.length).map (rankOf xs) ⊆ List.range' 1 xs.length := by
    intro x hx
    rcases List.mem_map.mp hx with ⟨i, hi, rfl⟩
    have hi' := List.mem_range.mp hi
    rw [List.mem_range'_1]
    refine ⟨?_, ?_⟩
    · unfold rankOf; omega
    · have hub : rankOf xs i ≤ xs.length := rankOf_le_length hi'; omega
  exact (List.subperm_of_subset hnd hsub).perm_of_length_le (by simp)

/-- Standardizing does not change the length. -/
lemma standardize_length (xs : List ℚ) : (standardize xs).length = xs.length :=
  List.length_map _ _

/-- The rank function always produces a permutation of `{1..N}`. -/
lemma rank_func_perm (xs : List ℚ) :
    (rank_func xs).Perm (List.range' 1 xs.length) := by
  have h := rank_list_perm (standardize xs)
  rw [standardize_length] at h
  exact h

/-- Rank 1 characterizes a minimum of the values, for duplicate-free lists. -/
lemma rankOf_eq_one_iff {ys : List ℚ} (hnd : ys.Nodup) {i : ℕ}
    (hi : i < ys.length) :
    rankOf ys i = 1 ↔ ∀ j, j < ys.length → ys.getD i 0 ≤ ys.getD j 0 := by
  unfold rankOf
  constructor
  · intro h j hj
    have hlen : ((List.range ys.length).filter
        (fun k => rankBefore ys k i)).length = 0 := by omega
    have hempty := List.length_eq_zero.mp hlen
    have hnotmem := List.filter_eq_nil_iff.mp hempty
    by_contra hgt
    push_neg at hgt
    refine hnotmem j (List.mem_range.mpr hj) ?_
    simp only [rankBefore, Bool.or_eq_true, decide_eq_true_eq, Bool.and_eq_true]
    exact Or.inl hgt
  · intro h
    have hempty : (List.range ys.length).filter (fun k => rankBefore ys k i) = [] := by
      apply List.filter_eq_nil_iff.mpr
      intro a ha hba
      have haj := List.mem_range.mp ha
      simp only [rankBefore, Bool.or_eq_true, decide_eq_true_eq,
        Bool.and_eq_true] at hba
      rcases hba with hlt | ⟨heq, hai⟩
      · exact absurd (h a haj) (not_le.mpr hlt)
      · have h₁ : ys.getD a 0 = ys[a] := List.getD_eq_getElem ys 0 haj
        have h₂ : ys.getD i 0 = ys[i] := List.getD_eq_getElem ys 0 hi
        rw [h₁, h₂] at heq
        have : a = i := (List.Nodup.getElem_inj_iff hnd).mp heq
        omega
    rw [hempty]
    rfl

/-- The rank list evaluated at a position within bounds. -/
lemma rank_func_getD {xs : List ℚ} {i : ℕ} (hi : i < xs.length) :
    (rank_func xs).getD i 0 = rankOf (standardize xs) i := by
  unfold rank_func
  have hlen : i < ((List.range xs.length).map (rankOf (standardize xs))).length := by
    simpa using hi
  rw [List.getD_eq_getElem _ _ hlen]
  simp

/-- Counting the elements of `range n` that are below `i`, for `i ≤ n`. -/
lemma countP_range_lt {n i : ℕ} (h : i ≤ n) :
    (List.range n).countP (fun j => decide (j < i)) = i := by
  rw [List.range_eq_range']
  have hsplit : List.range' 0 i ++ List.range' (0 + i) (n - i) =
      List.range' 0 n := by
    rw [List.range'_append_1]; congr 1; omega
  rw [← hsplit, List.countP_append]
  have h₁ : (List.range' 0 i).countP (fun j => decide (j < i)) = i := by
    rw [List.countP_eq_length.mpr, List.length_range']
    intro x hx
    have := List.mem_range'_1.mp hx
    simpa using by omega
  have h₂ : (List.range' (0 + i) (n - i)).countP (fun j => decide (j < i)) = 0 := by
    rw [List.countP_eq_zero]
    intro x hx
    have := List.mem_range'_1.mp hx
    simpa using by omega
  omega

/-- On a constant list the rank of a position is its original-order rank. -/
lemma rankOf_replicate (n : ℕ) (v : ℚ) {i : ℕ} (hi : i < n) :
    rankOf (List.replicate n v) i = 1 + i := by
  unfold rankOf
  rw [List.length_replicate]
  have hcongr : ∀ j ∈ List.range n,
      rankBefore (List.replicate n v) j i = decide (j < i) := by
    intro j hj
    have hj' := List.mem_range.mp hj
    have hgj : (List.replicate n v).getD j 0 = v := by
      rw [List.getD_eq_getElem _ _ (by simpa using hj'), List.getElem_replicate]
    have hgi : (List.replicate n v).getD i 0 = v := by
      rw [List.getD_eq_getElem _ _ (by simpa using hi), List.getElem_replicate]
    simp only [rankBefore]
    rw [hgj, hgi]
    simp
  rw [List.filter_congr hcongr, ← List.countP_eq_length_filter,
    countP_range_lt (le_of_lt hi)]

/-- C6: The three factor values computed by the program equal the
specified formulas. -/
theorem factor_formulas_match_spec (d : RawData) :
    bq_px_to_book d = spec_price_to_book d ∧
    bq_avg_roe_2y d = spec_avg_roe_2y d ∧
    bq_cash_per_asset d = spec_cash_per_asset d :=
  ⟨rfl, rfl, rfl⟩

/-- The screened identifiers all come from the universe. -/
lemma screen_subset (univ : List ℕ) (d : ℕ → RawData) : screen univ d ⊆ univ := by
  intro id hid
  unfold screen at hid
  rcases List.mem_map.mp hid with ⟨i, hi, rfl⟩
  have hmem : i ∈ List.range univ.length := filtered_univ_subset _ _ _ hi
  have hi' := List.mem_range.mp hmem
  rw [List.getD_eq_getElem _ _ hi']
  exact List.getElem_mem _

/-- C3: For pairwise-distinct factor values the rank function assigns ranks
bijectively onto `{1..N}`, and rank 1 goes to the position holding the
lowest standardized value. -/
theorem rank_func_bijection (xs : List ℚ) (hd : xs.Nodup) :
    (rank_func xs).Perm (List.range' 1 xs.length) ∧
    ∀ i, i < xs.length →
      ((rank_func xs).getD i 0 = 1 ↔
        ∀ j, j < xs.length →
          (standardize xs).getD i 0 ≤ (standardize xs).getD j 0) := by
  refine ⟨rank_func_perm xs, ?_⟩
  intro i hi
  have hnd : (standardize xs).Nodup := hd.map sub_left_injective
  have hi' : i < (standardize xs).length := by
    rw [standardize_length]; exact hi
  rw [rank_func_getD hi]
  have h := rankOf_eq_one_iff hnd hi'
  rw [standardize_length] at h
  exact h

/-- Witness for C3 at a concrete duplicate-free list of values. -/
theorem rank_func_bijection_witness :
    ([3, 1, 2] : List ℚ).Nodup ∧
    ((rank_func [3, 1, 2]).Perm (List.range' 1 ([3, 1, 2] : List ℚ).length) ∧
      ∀ i, i < ([3, 1, 2] : List ℚ).length →
        ((rank_func [3, 1, 2]).getD i 0 = 1 ↔
          ∀ j, j < ([3, 1, 2] : List ℚ).length →
            (standardize [3, 1, 2]).getD i 0 ≤ (standardize [3, 1, 2]).getD j 0)) :=
  ⟨by decide, rank_func_bijection [3, 1, 2] (by decide)⟩

/-- C5: For a factor with all-identical values the rank computation is total:
no division failure occurs and every identifier receives a defined rank, the
ranks being exactly `1..N` in original order. -/
theorem rank_func_zero_variance (n : ℕ) (c : ℚ) :
    (rank_func (List.replicate n c)).length = n ∧
    rank_func (List.replicate n c) = List.range' 1 n ∧
    ∀ r ∈ rank_func (List.replicate n c), 1 ≤ r ∧ r ≤ n := by
  have hstd : standardize (List.replicate n c) =
      List.replicate n (c - mean (List.replicate n c)) := by
    simp [standardize, List.map_replicate]
  have heq : rank_func (List.replicate n c) = List.range' 1 n := by
    unfold rank_func
    rw [List.length_replicate, hstd]
    have hpt : ∀ i ∈ List.range n,
        rankOf (List.replicate n (c - mean (List.replicate n c))) i = 1 + i :=
      fun i hi => rankOf_replicate n _ (List.mem_range.mp hi)
    rw [List.map_congr_left hpt, List.range'_eq_map_range]
  refine ⟨by rw [heq, List.length_range'], heq, ?_⟩
  intro r hr
  rw [heq] at hr
  have := List.mem_range'_1.mp hr
  omega

/-- Witness for C5 at a concrete constant list. -/
theorem rank_func_zero_variance_witness :
    (rank_func (List.replicate 3 (5 : ℚ))).length = 3 ∧
    rank_func (List.replicate 3 (5 : ℚ)) = List.range' 1 3 ∧
    ∀ r ∈ rank_func (List.replicate 3 (5 : ℚ)), 1 ≤ r ∧ r ≤ 3 :=
  rank_func_zero_variance 3 5

/-- C1: An identifier belongs to the filtered universe iff it belongs to the
universe and its rank in each of the three factors is at most the threshold
rank; the filtered universe is the intersection of the three single-factor
pass sets and is a subset of the original universe. -/
theorem filtered_univ_characterization (univ : List ℕ) (r₁ r₂ r₃ : ℕ → ℕ)
    (p : ℚ) :
    (∀ id, id ∈ filtered_univ univ [r₁, r₂, r₃] (threshold_rank p univ.length) ↔
        id ∈ univ ∧
          (r₁ id : ℤ) ≤ threshold_rank p univ.length ∧
          (r₂ id : ℤ) ≤ threshold_rank p univ.length ∧
          (r₃ id : ℤ) ≤ threshold_rank p univ.length) ∧
    (filtered_univ univ [r₁, r₂, r₃] (threshold_rank p univ.length)).toFinset =
      (filter_univ univ
          (fun id => decide ((r₁ id : ℤ) ≤ threshold_rank p univ.length))).toFinset ∩
        (filter_univ univ
          (fun id => decide ((r₂ id : ℤ) ≤ threshold_rank p univ.length))).toFinset ∩
        (filter_univ univ
          (fun id => decide ((r₃ id : ℤ) ≤ threshold_rank p univ.length))).toFinset ∧
    filtered_univ univ [r₁, r₂, r₃] (threshold_rank p univ.length) ⊆ univ := by
  refine ⟨fun id => mem_filtered_univ, ?_, filtered_univ_subset _ _ _⟩
  ext id
  simp only [List.mem_toFinset, Finset.mem_inter, mem_filtered_univ, filter_univ,
    List.mem_filter, decide_eq_true_eq]
  tauto

/-- C2: The threshold rank equals the floor of `p * N` for every nonnegative
percentage `p`; at `p = 1` it equals `N` and nothing is filtered out, at
`p = 0` it equals `0` and everything is filtered out. -/
theorem threshold_rank_boundaries (univ : List ℕ) (r₁ r₂ r₃ : ℕ → ℕ) (p : ℚ)
    (hp : 0 ≤ p)
    (hranks : ∀ id ∈ univ,
      (1 ≤ r₁ id ∧ r₁ id ≤ univ.length) ∧ (1 ≤ r₂ id ∧ r₂ id ≤ univ.length) ∧
        (1 ≤ r₃ id ∧ r₃ id ≤ univ.length)) :
    threshold_rank p univ.length = ⌊p * univ.length⌋ ∧
    threshold_rank 1 univ.length = univ.length ∧
    threshold_rank 0 univ.length = 0 ∧
    filtered_univ univ [r₁, r₂, r₃] (threshold_rank 1 univ.length) = univ ∧
    filtered_univ univ [r₁, r₂, r₃] (threshold_rank 0 univ.length) = [] := by
  have h1 : threshold_rank 1 univ.length = univ.length := by
    rw [threshold_rank, one_mul, pyInt_eq_floor_of_nonneg (Nat.cast_nonneg _)]
    exact Int.floor_natCast _
  have h0 : threshold_rank 0 univ.length = 0 := by
    rw [threshold_rank, zero_mul, pyInt_eq_floor_of_nonneg le_rfl]
    exact Int.floor_zero
  refine ⟨pyInt_eq_floor_of_nonneg (mul_nonneg hp (Nat.cast_nonneg _)), h1, h0, ?_, ?_⟩
  · rw [h1]
    apply List.filter_eq_self.mpr
    intro id hid
    rw [criteria_final_three]
    have h := hranks id hid
    simp only [Bool.and_eq_true, decide_eq_true_eq]
    exact ⟨⟨by exact_mod_cast h.1.2, by exact_mod_cast h.2.1.2⟩,
      by exact_mod_cast h.2.2.2⟩
  · rw [h0]
    apply List.filter_eq_nil_iff.mpr
    intro id hid
    rw [criteria_final_three]
    have h := hranks id hid
    simp only [Bool.and_eq_true, decide_eq_true_eq, not_and]
    intro h12 _
    have := h.1.1
    omega

/-- Witness for C2 at a concrete universe, percentage and rank vectors. -/
theorem threshold_rank_boundaries_witness :
    (0 : ℚ) ≤ 1 / 2 ∧
    (∀ id ∈ [7, 8],
      (1 ≤ ([1, 2].getD (id - 7) 0) ∧ ([1, 2].getD (id - 7) 0) ≤ [7, 8].length) ∧
        (1 ≤ ([2, 1].getD (id - 7) 0) ∧ ([2, 1].getD (id - 7) 0) ≤ [7, 8].length) ∧
        (1 ≤ ([1, 2].getD (id - 7) 0) ∧ ([1, 2].getD (id - 7) 0) ≤ [7, 8].length)) ∧
    (threshold_rank (1 / 2) [7, 8].length = ⌊(1 / 2 : ℚ) * [7, 8].length⌋ ∧
      threshold_rank 1 [7, 8].length = [7, 8].length ∧
      threshold_rank 0 [7, 8].length = 0 ∧
      filtered_univ [7, 8] [fun id => [1, 2].getD (id - 7) 0,
        fun id => [2, 1].getD (id - 7) 0, fun id => [1, 2].getD (id - 7) 0]
        (threshold_rank 1 [7, 8].length) = [7, 8] ∧
      filtered_univ [7, 8] [fun id => [1, 2].getD (id - 7) 0,
        fun id => [2, 1].getD (id - 7) 0, fun id => [1, 2].getD (id - 7) 0]
        (threshold_rank 0 [7, 8].length) = []) :=
  ⟨by norm_num, by decide,
    threshold_rank_boundaries [7, 8] (fun id => [1, 2].getD (id - 7) 0)
      (fun id => [2, 1].getD (id - 7) 0) (fun id => [1, 2].getD (id - 7) 0)
      (1 / 2) (by norm_num) (by decide)⟩

/-- C4: The screening filter is monotone in the threshold percentage. -/
theorem screening_monotone (univ : List ℕ) (r₁ r₂ r₃ : ℕ → ℕ) (p₁ p₂ : ℚ)
    (h : p₁ ≤ p₂) :
    filtered_univ univ [r₁, r₂, r₃] (threshold_rank p₁ univ.length) ⊆
      filtered_univ univ [r₁, r₂, r₃] (threshold_rank p₂ univ.length) := by
  intro id hid
  rw [mem_filtered_univ] at hid ⊢
  have ht : threshold_rank p₁ univ.length ≤ threshold_rank p₂ univ.length :=
    pyInt_mono (mul_le_mul_of_nonneg_right h (Nat.cast_nonneg _))
  exact ⟨hid.1, hid.2.1.trans ht, hid.2.2.1.trans ht, hid.2.2.2.trans ht⟩

/-- C10: When the ranks of a factor over the universe form a permutation of
`{1..N}`, exactly `int(0.80 * N)` identifiers satisfy the single-factor
criterion `rank ≤ threshold_rank`, so the screen excludes
`N - int(0.80 * N)` identifiers. -/
theorem single_factor_pass_count (univ : List ℕ) (r : ℕ → ℕ)
    (hperm : (univ.map r).Perm (List.range' 1 univ.length)) :
    (filter_univ univ (fun id => decide ((r id : ℤ) ≤
        threshold_rank threshold_percentage univ.length))).length =
      (threshold_rank threshold_percentage univ.length).toNat ∧
    univ.length - (filter_univ univ (fun id => decide ((r id : ℤ) ≤
        threshold_rank threshold_percentage univ.length))).length =
      univ.length - (threshold_rank threshold_percentage univ.length).toNat := by
  have hp0 : (0 : ℚ) ≤ threshold_percentage := by norm_num [threshold_percentage]
  have hp1 : threshold_percentage ≤ 1 := by norm_num [threshold_percentage]
  set n := univ.length with hn
  set t := threshold_rank threshold_percentage n with htdef
  have ht0 : 0 ≤ t := by
    rw [htdef, threshold_rank,
      pyInt_eq_floor_of_nonneg (mul_nonneg hp0 (Nat.cast_nonneg _))]
    exact Int.floor_nonneg.mpr (mul_nonneg hp0 (Nat.cast_nonneg _))
  have htn : t ≤ (n : ℤ) := by
    rw [htdef, threshold_rank,
      pyInt_eq_floor_of_nonneg (mul_nonneg hp0 (Nat.cast_nonneg _))]
    calc ⌊threshold_percentage * (n : ℚ)⌋ ≤ ⌊(n : ℚ)⌋ :=
          Int.floor_le_floor (mul_le_of_le_one_left (Nat.cast_nonneg _) hp1)
      _ = (n : ℤ) := Int.floor_natCast _
  have htoNat : t.toNat ≤ n := by omega
  have key : (filter_univ univ (fun id => decide ((r id : ℤ) ≤ t))).length =
      t.toNat := by
    rw [filter_univ, ← List.countP_eq_length_filter]
    have h1 : univ.countP (fun id => decide ((r id : ℤ) ≤ t)) =
        (univ.map r).countP (fun k : ℕ => decide ((k : ℤ) ≤ t)) := by
      rw [List.countP_map]; rfl
    rw [h1, hperm.countP_eq]
    have h2 : (List.range' 1 n).countP (fun k : ℕ => decide ((k : ℤ) ≤ t)) =
        (List.range' 1 n).countP (fun k => decide (k ≤ t.toNat)) :=
      List.countP_congr (fun k _ => by simp [Int.le_toNat ht0])
    rw [h2]
    exact countP_range'_le htoNat
  exact ⟨key, by rw [key]⟩

/-- Witness for C10 at a concrete universe whose ranks are a permutation. -/
theorem single_factor_pass_count_witness :
    ([10, 11, 12].map (fun id => id - 9)).Perm
        (List.range' 1 [10, 11, 12].length) ∧
    ((filter_univ [10, 11, 12] (fun id => decide (((id - 9 : ℕ) : ℤ) ≤
        threshold_rank threshold_percentage [10, 11, 12].length))).length =
      (threshold_rank threshold_percentage [10, 11, 12].length).toNat ∧
    [10, 11, 12].length -
        (filter_univ [10, 11, 12] (fun id => decide (((id - 9 : ℕ) : ℤ) ≤
          threshold_rank threshold_percentage [10, 11, 12].length))).length =
      [10, 11, 12].length -
        (threshold_rank threshold_percentage [10, 11, 12].length).toNat) :=
  ⟨by decide, single_factor_pass_count [10, 11, 12] (fun id => id - 9) (by decide)⟩

/-- Witness for C4 at concrete percentages and a concrete universe. -/
theorem screening_monotone_witness :
    (0 : ℚ) ≤ 1 ∧
    filtered_univ [5] [fun _ => 1, fun _ => 1, fun _ => 1]
        (threshold_rank 0 [5].length) ⊆
      filtered_univ [5] [fun _ => 1, fun _ => 1, fun _ => 1]
        (threshold_rank 1 [5].length) :=
  ⟨by norm_num, screening_monotone [5] _ _ _ 0 1 (by norm_num)⟩

/-- C7: The result table holds exactly one row per identifier of the filtered
universe, in order; each cell is the raw factor value, not a rank; the column
order is fixed to average-ROE, price-to-book, cash-per-asset. -/
theorem result_table_shape (filtered : List ℕ) (d : ℕ → RawData) :
    (bq_result_df filtered (items_ordered_dict d)).length = filtered.length ∧
    (items_ordered_dict d).map Prod.fst =
      ["AVE_ROE_2Y", "PX_BOOK_VALUE", "CASH_PER_ASSET"] ∧
    ∀ i, i < filtered.length →
      (bq_result_df filtered (items_ordered_dict d)).getD i [] =
        [bq_avg_roe_2y (d (filtered.getD i 0)),
         bq_px_to_book (d (filtered.getD i 0)),
         bq_cash_per_asset (d (filtered.getD i 0))] := by
  refine ⟨by simp [bq_result_df], rfl, ?_⟩
  intro i hi
  have hlen : i < (bq_result_df filtered (items_ordered_dict d)).length := by
    simpa [bq_result_df] using hi
  rw [List.getD_eq_getElem _ _ hlen, List.getD_eq_getElem _ _ hi]
  simp [bq_result_df, items_ordered_dict]

/-- Witness for C7 at a concrete filtered universe and data record. -/
theorem result_table_shape_witness :
    (bq_result_df [4] (items_ordered_dict (fun _ => ⟨1, 2, 3, 4, 5, 6⟩))).length =
        [4].length ∧
    (items_ordered_dict (fun _ => (⟨1, 2, 3, 4, 5, 6⟩ : RawData))).map Prod.fst =
      ["AVE_ROE_2Y", "PX_BOOK_VALUE", "CASH_PER_ASSET"] ∧
    ∀ i, i < [4].length →
      (bq_result_df [4] (items_ordered_dict (fun _ => ⟨1, 2, 3, 4, 5, 6⟩))).getD i [] =
        [bq_avg_roe_2y ((fun _ => (⟨1, 2, 3, 4, 5, 6⟩ : RawData)) ([4].getD i 0)),
         bq_px_to_book ((fun _ => (⟨1, 2, 3, 4, 5, 6⟩ : RawData)) ([4].getD i 0)),
         bq_cash_per_asset ((fun _ => (⟨1, 2, 3, 4, 5, 6⟩ : RawData)) ([4].getD i 0))] :=
  result_table_shape [4] (fun _ => ⟨1, 2, 3, 4, 5, 6⟩)

/-- C8: The pipeline is deterministic: two runs on identical inputs (same
universe, same raw data over its members) produce the same filtered set and
the same result table. -/
theorem pipeline_deterministic (univ₁ univ₂ : List ℕ) (d₁ d₂ : ℕ → RawData)
    (hu : univ₁ = univ₂) (hd : ∀ id ∈ univ₁, d₁ id = d₂ id) :
    screen univ₁ d₁ = screen univ₂ d₂ ∧
    run_pipeline univ₁ d₁ = run_pipeline univ₂ d₂ := by
  subst hu
  have hmap : ∀ f : RawData → ℚ,
      univ₁.map (fun id => f (d₁ id)) = univ₁.map (fun id => f (d₂ id)) :=
    fun f => List.map_congr_left (fun id hid => by rw [hd id hid])
  have hscreen : screen univ₁ d₁ = screen univ₁ d₂ := by
    unfold screen
    rw [hmap bq_avg_roe_2y, hmap bq_px_to_book, hmap bq_cash_per_asset]
  refine ⟨hscreen, ?_⟩
  show (screen univ₁ d₁, bq_result_df (screen univ₁ d₁) (items_ordered_dict d₁)) =
    (screen univ₁ d₂, bq_result_df (screen univ₁ d₂) (items_ordered_dict d₂))
  rw [← hscreen]
  have hrows : bq_result_df (screen univ₁ d₁) (items_ordered_dict d₁) =
      bq_result_df (screen univ₁ d₁) (items_ordered_dict d₂) := by
    unfold bq_result_df
    apply List.map_congr_left
    intro id hid
    have hdeq := hd id (screen_subset univ₁ d₁ hid)
    simp [items_ordered_dict, hdeq]
  rw [hrows]

/-- Witness for C8 at a concrete universe and data assignment. -/
theorem pipeline_deterministic_witness :
    [9] = [9] ∧
    (∀ id ∈ [9], (fun _ : ℕ => (⟨1, 2, 3, 4, 5, 6⟩ : RawData)) id =
      (fun _ : ℕ => (⟨1, 2, 3, 4, 5, 6⟩ : RawData)) id) ∧
    (screen [9] (fun _ => ⟨1, 2, 3, 4, 5, 6⟩) =
        screen [9] (fun _ => ⟨1, 2, 3, 4, 5, 6⟩) ∧
      run_pipeline [9] (fun _ => ⟨1, 2, 3, 4, 5, 6⟩) =
        run_pipeline [9] (fun _ => ⟨1, 2, 3, 4, 5, 6⟩)) :=
  ⟨rfl, fun _ _ => rfl,
    pipeline_deterministic [9] [9] _ _ rfl (fun _ _ => rfl)⟩

/-- C9 as stated fails on the code: a run submits two outbound requests to
the data service, not at most one. -/
theorem run_requests_not_single :
    (run_requests [] (fun _ => ⟨0, 0, 0, 0, 0, 0⟩)).length = 2 ∧
    ¬ (run_requests [] (fun _ => ⟨0, 0, 0, 0, 0, 0⟩)).length ≤ 1 :=
  ⟨rfl, by decide⟩

/-- C9 amended: each run performs exactly two outbound requests: the member
count request followed by the screening request; no other effect occurs, the
outputs being a function of the inputs alone. -/
theorem run_requests_exactly_two (univ : List ℕ) (d : ℕ → RawData) :
    run_requests univ d =
      [BqlRequest.countRequest univ,
       BqlRequest.screeningRequest (screen univ d)
         ((items_ordered_dict d).map Prod.fst)] ∧
    (run_requests univ d).length = 2 :=
  ⟨rfl, rfl⟩

end ValueScreening
